import Mathlib

/-!
Verification of the invoice generator (`app.py`): placeholder substitution
over a document model, trailing-empty-paragraph trimming, invoice-suffix
ledger scan, financial computation, and request validation.

Strings are modelled as `List Char`.  Python float arithmetic is modelled by
exact rational arithmetic (`ℚ`); `python-docx` runs are modelled by their
text and their optional explicit bold flag (`none` = flag unset, inherited).
-/

namespace Invoice

/-- A text run: a span of characters with an optional explicit bold flag
(`none` means the flag is absent and the style value is inherited, exactly
as `python-docx` run `bold = None`). -/
structure Run where
  text : List Char
  bold : Option Bool
deriving DecidableEq

/-- A paragraph: an ordered sequence of runs. -/
structure Paragraph where
  runs : List Run
deriving DecidableEq

/-- `full_text = ''.join(run.text for run in paragraph.runs)` -/
def concatText (p : Paragraph) : List Char :=
  (p.runs.map Run.text).flatten

/-! ## The regex `PLACEHOLDER_RE = re.compile(r'(\{\{[^}]+\}\})')`

`tryMatch` is one anchored attempt of the pattern at the head of the input:
open double-brace, one or more non-close-brace characters (`takeWhile`, the
greedy `[^}]+`), then a closing double-brace.  On success it returns the
matched token text (braces included) and the rest of the input. -/

def tryMatch : List Char → Option (List Char × List Char)
  | '{' :: '{' :: rest =>
    match rest.takeWhile (fun c => c ≠ '}'), rest.dropWhile (fun c => c ≠ '}') with
    | [], _ => none
    | inner, '}' :: '}' :: rest2 =>
        some ('{' :: '{' :: (inner ++ ['}', '}']), rest2)
    | _, _ => none
  | _ => none

/-- The pattern `(\{\{[^}]+\}\})` matches at the head of `s`. -/
def HeadMatch (s : List Char) : Prop :=
  ∃ inner rest, inner ≠ [] ∧ (∀ c ∈ inner, c ≠ '}') ∧
    s = '{' :: '{' :: (inner ++ '}' :: '}' :: rest)

theorem takeWhile_append_not {α : Type} {p : α → Bool} :
    ∀ {l : List α} {c : α} {r : List α}, (∀ a ∈ l, p a = true) → p c = false →
      (l ++ c :: r).takeWhile p = l ∧ (l ++ c :: r).dropWhile p = c :: r := by
  intro l
  induction l with
  | nil =>
    intro c r _ hc
    simp [List.takeWhile, List.dropWhile, hc]
  | cons a l ih =>
    intro c r hl hc
    have ha : p a = true := hl a (by simp)
    have hrest := ih (c := c) (r := r) (fun x hx => hl x (by simp [hx])) hc
    simp [List.takeWhile, List.dropWhile, ha, hrest.1, hrest.2]

theorem tryMatch_eq_some_iff {s tok rest : List Char} :
    tryMatch s = some (tok, rest) ↔
      ∃ inner, inner ≠ [] ∧ (∀ c ∈ inner, c ≠ '}') ∧
        s = '{' :: '{' :: (inner ++ '}' :: '}' :: rest) ∧
        tok = '{' :: '{' :: (inner ++ ['}', '}']) := by
  constructor
  · intro h
    match s with
    | [] => simp [tryMatch] at h
    | [c] =>
      cases c
      simp only [tryMatch] at h
      split at h <;> simp_all
    | c1 :: c2 :: r =>
      by_cases h1 : c1 = '{'
      · by_cases h2 : c2 = '{'
        · subst h1; subst h2
          simp only [tryMatch] at h
          rcases htd : r.takeWhile (fun c => c ≠ '}'), hdd : r.dropWhile (fun c => c ≠ '}') with
            ⟨tw, dw⟩
          rw [htd, hdd] at h
          match tw, dw with
          | [], _ => simp at h
          | i0 :: irest, [] => simp at h
          | i0 :: irest, [d0] => simp at h
          | i0 :: irest, d0 :: d1 :: drest =>
            by_cases hd0 : d0 = '}'
            · by_cases hd1 : d1 = '}'
              · subst hd0; subst hd1
                simp only [Option.some.injEq, Prod.mk.injEq] at h
                refine ⟨i0 :: irest, by simp, ?_, ?_, ?_⟩
                · intro c hc
                  have := List.mem_takeWhile_imp (htd ▸ hc)
                  simpa using this
                · have hr : r = (i0 :: irest) ++ '}' :: '}' :: drest := by
                    conv_lhs => rw [← List.takeWhile_append_dropWhile
                      (p := fun c => c ≠ '}') (l := r)]
                    rw [htd, hdd]
                  rw [hr, ← h.2]
                · rw [← h.1]
              · exfalso
                have : d1 ≠ '}' := hd1
                simp only [tryMatch, hd0] at h
                split at h <;> simp_all
            · exfalso
              have hmem : d0 ∈ r.dropWhile (fun c => c ≠ '}') := by rw [hdd]; simp
              have := List.head?_dropWhile_not (p := fun c => c ≠ '}') (l := r)
              rw [hdd] at this
              simp at this
              exact hd0 this
        · exfalso
          simp only [tryMatch] at h
          match hc : c1, hc2 : c2 with
          | _, _ => simp_all [tryMatch]
      · exfalso
        simp_all [tryMatch]
  · rintro ⟨inner, hne, hmem, rfl, rfl⟩
    have hsp := takeWhile_append_not (p := fun c => decide (c ≠ '}'))
      (l := inner) (c := '}') (r := '}' :: rest)
      (fun a ha => by simpa using hmem a ha) (by simp)
    simp only [tryMatch]
    rw [hsp.1, hsp.2]
    match inner, hne with
    | i0 :: irest, _ => simp

theorem tryMatch_eq_none_iff {s : List Char} :
    tryMatch s = none ↔ ¬ HeadMatch s := by
  constructor
  · intro h hm
    rcases hm with ⟨inner, rest, hne, hmem, rfl⟩
    have : tryMatch ('{' :: '{' :: (inner ++ '}' :: '}' :: rest)) =
        some ('{' :: '{' :: (inner ++ ['}', '}']), rest) :=
      tryMatch_eq_some_iff.2 ⟨inner, hne, hmem, rfl, rfl⟩
    rw [this] at h
    exact Option.noConfusion h
  · intro h
    rcases ho : tryMatch s with _ | ⟨tok, rest⟩
    · rfl
    · exfalso
      rcases tryMatch_eq_some_iff.1 ho with ⟨inner, hne, hmem, hs, _⟩
      exact h ⟨inner, rest, hne, hmem, hs⟩

theorem tryMatch_length {s tok rest : List Char} (h : tryMatch s = some (tok, rest)) :
    rest.length < s.length := by
  rcases tryMatch_eq_some_iff.1 h with ⟨inner, _, _, rfl, _⟩
  simp [List.length_append]
  omega

/-! ## `re.finditer` over the full text

`scan1F` is the scan loop of the regex engine: at each position attempt the
anchored pattern; on failure advance one character (the character becomes
literal text), on success emit the token and continue after it.  `fuel` is a
structural-recursion bound; `scan1` instantiates it with the input length,
which always suffices. -/

def scan1F : Nat → List Char → List (Sum Char (List Char))
  | 0, _ => []
  | _ + 1, [] => []
  | fuel + 1, c :: cs =>
    match tryMatch (c :: cs) with
    | some (tok, rest) => Sum.inr tok :: scan1F fuel rest
    | none => Sum.inl c :: scan1F fuel cs

def scan1 (s : List Char) : List (Sum Char (List Char)) := scan1F s.length s

theorem scan1F_cons_some {f : Nat} {c : Char} {cs tok rest : List Char}
    (h : tryMatch (c :: cs) = some (tok, rest)) :
    scan1F (f + 1) (c :: cs) = Sum.inr tok :: scan1F f rest := by
  simp only [scan1F, h]

theorem scan1F_cons_none {f : Nat} {c : Char} {cs : List Char}
    (h : tryMatch (c :: cs) = none) :
    scan1F (f + 1) (c :: cs) = Sum.inl c :: scan1F f cs := by
  simp only [scan1F, h]

theorem scan1F_congr :
    ∀ f1 f2 s, s.length ≤ f1 → s.length ≤ f2 → scan1F f1 s = scan1F f2 s := by
  intro f1
  induction f1 with
  | zero =>
    intro f2 s h1 _
    have : s = [] := List.length_eq_zero.1 (Nat.le_zero.1 h1)
    subst this
    cases f2 <;> rfl
  | succ f1 ih =>
    intro f2 s h1 h2
    match s with
    | [] => cases f2 <;> rfl
    | c :: cs =>
      cases f2 with
      | zero => simp at h2
      | succ f2 =>
        rcases hm : tryMatch (c :: cs) with _ | ⟨tok, rest⟩
        · rw [scan1F_cons_none hm, scan1F_cons_none hm,
            ih f2 cs (by simp only [List.length_cons] at h1; omega)
              (by simp only [List.length_cons] at h2; omega)]
        · have hlt := tryMatch_length hm
          rw [scan1F_cons_some hm, scan1F_cons_some hm,
            ih f2 rest (by simp only [List.length_cons] at h1 hlt; omega)
              (by simp only [List.length_cons] at h2 hlt; omega)]

theorem scan1_cons_some {c : Char} {cs tok rest : List Char}
    (h : tryMatch (c :: cs) = some (tok, rest)) :
    scan1 (c :: cs) = Sum.inr tok :: scan1 rest := by
  have hlt := tryMatch_length h
  simp only [scan1, List.length_cons]
  rw [scan1F_cons_some h,
    scan1F_congr cs.length rest.length rest
      (by simp only [List.length_cons] at hlt; omega) (Nat.le_refl _)]

theorem scan1_cons_none {c : Char} {cs : List Char} (h : tryMatch (c :: cs) = none) :
    scan1 (c :: cs) = Sum.inl c :: scan1 cs := by
  simp only [scan1, List.length_cons]
  rw [scan1F_cons_none h]

/-! ## Declarative specification of the scan

`ScansRel s out` says: `out` is the left-to-right decomposition of `s` into
single literal characters and non-overlapping placeholder matches, where a
position contributes a literal character only when no match starts there
(leftmost priority), and a match is `{{`, one or more non-`}` characters
(hence greedy up to the first `}}` and never nested), then `}}`. -/

inductive ScansRel : List Char → List (Sum Char (List Char)) → Prop
  | nil : ScansRel [] []
  | lit {c : Char} {cs out} : ¬ HeadMatch (c :: cs) → ScansRel cs out →
      ScansRel (c :: cs) (Sum.inl c :: out)
  | tok {inner rest out} : inner ≠ [] → (∀ ch ∈ inner, ch ≠ '}') →
      ScansRel rest out →
      ScansRel ('{' :: '{' :: (inner ++ '}' :: '}' :: rest))
        (Sum.inr ('{' :: '{' :: (inner ++ ['}', '}'])) :: out)

theorem scan1_sound_aux : ∀ (n : Nat) (s : List Char), s.length ≤ n → ScansRel s (scan1 s) := by
  intro n
  induction n with
  | zero =>
    intro s h
    have : s = [] := List.length_eq_zero.1 (Nat.le_zero.1 h)
    subst this
    exact ScansRel.nil
  | succ n ih =>
    intro s h
    match s with
    | [] => exact ScansRel.nil
    | c :: cs =>
      rcases hm : tryMatch (c :: cs) with _ | ⟨tok, rest⟩
      · rw [scan1_cons_none hm]
        exact ScansRel.lit (tryMatch_eq_none_iff.1 hm) (ih cs (by simp at h; omega))
      · rw [scan1_cons_some hm]
        rcases tryMatch_eq_some_iff.1 hm with ⟨inner, hne, hmem, heq, rfl⟩
        have hlt := tryMatch_length hm
        have hrel := ih rest (by simp only [List.length_cons] at h hlt; omega)
        rw [heq]
        exact ScansRel.tok hne hmem hrel

/-- Soundness: the regex scan satisfies the declarative decomposition spec. -/
theorem scan1_sound (s : List Char) : ScansRel s (scan1 s) :=
  scan1_sound_aux s.length s (Nat.le_refl _)

/-- Uniqueness: the declarative spec pins the decomposition down; the scan
output is the only one. -/
theorem scansRel_unique {s : List Char} {out : List (Sum Char (List Char))}
    (h : ScansRel s out) : out = scan1 s := by
  induction h with
  | nil => rfl
  | lit hnm _ ih =>
    rw [scan1_cons_none (tryMatch_eq_none_iff.2 hnm), ih]
  | @tok inner rest out hne hmem _ ih =>
    have hm : tryMatch ('{' :: '{' :: (inner ++ '}' :: '}' :: rest)) =
        some ('{' :: '{' :: (inner ++ ['}', '}']), rest) :=
      tryMatch_eq_some_iff.2 ⟨inner, hne, hmem, rfl, rfl⟩
    rw [scan1_cons_some hm, ih]

/-- The text of one scan element. -/
def seg1Text : Sum Char (List Char) → List Char
  | Sum.inl c => [c]
  | Sum.inr t => t

/-- Reconstruction: the decomposition loses and reorders nothing. -/
theorem scansRel_join {s : List Char} {out : List (Sum Char (List Char))}
    (h : ScansRel s out) : (out.map seg1Text).flatten = s := by
  induction h with
  | nil => rfl
  | lit _ _ ih => simp [seg1Text, ih]
  | tok _ _ _ ih => simp [seg1Text, ih]

theorem scan1_join (s : List Char) : ((scan1 s).map seg1Text).flatten = s :=
  scansRel_join (scan1_sound s)

/-! ## Chunked segments

The `idx`/`m.span()` bookkeeping in `replace_placeholders_in_paragraph`
appends the literal text between consecutive matches as a single segment
(and only when it is non-empty).  `coalesce` performs exactly that grouping
on the single-character scan output. -/

inductive Seg where
  | lit : List Char → Seg
  | tok : List Char → Seg
deriving DecidableEq

def Seg.text : Seg → List Char
  | .lit l => l
  | .tok t => t

def Seg.isTok : Seg → Bool
  | .lit _ => false
  | .tok _ => true

def coalesce : List (Sum Char (List Char)) → List Seg
  | [] => []
  | Sum.inr t :: rest => Seg.tok t :: coalesce rest
  | Sum.inl c :: rest =>
    match coalesce rest with
    | Seg.lit l :: out => Seg.lit (c :: l) :: out
    | out => Seg.lit [c] :: out

/-- The full scan of a paragraph text: `PLACEHOLDER_RE.finditer` matches as
token segments, the text before, between and after them as literal
segments. -/
def scan (s : List Char) : List Seg := coalesce (scan1 s)

theorem coalesce_join (l : List (Sum Char (List Char))) :
    ((coalesce l).map Seg.text).flatten = (l.map seg1Text).flatten := by
  induction l with
  | nil => rfl
  | cons x rest ih =>
    match x with
    | Sum.inr t => simp only [coalesce, List.map_cons, List.flatten_cons, ih, seg1Text, Seg.text]
    | Sum.inl c =>
      simp only [coalesce]
      rcases hco : coalesce rest with _ | ⟨s0, out⟩
      · rw [hco] at ih
        simp only [List.map_cons, List.flatten_cons, ← ih, List.map_nil, List.flatten_nil,
          seg1Text, Seg.text, List.map_cons]
      · match s0 with
        | Seg.lit l0 =>
          rw [hco] at ih
          simp only [List.map_cons, List.flatten_cons, Seg.text, seg1Text] at ih ⊢
          rw [← ih]
          simp
        | Seg.tok t0 =>
          rw [hco] at ih
          simp only [List.map_cons, List.flatten_cons, Seg.text, seg1Text] at ih ⊢
          rw [← ih]

theorem scan_join (s : List Char) : ((scan s).map Seg.text).flatten = s := by
  rw [scan, coalesce_join, scan1_join]

theorem coalesce_tok_mem {t : List Char} :
    ∀ {l : List (Sum Char (List Char))}, Seg.tok t ∈ coalesce l ↔ Sum.inr t ∈ l := by
  intro l
  induction l with
  | nil => simp [coalesce]
  | cons x rest ih =>
    match x with
    | Sum.inr t0 => simp [coalesce, ih]
    | Sum.inl c =>
      simp only [coalesce]
      rcases hco : coalesce rest with _ | ⟨s0, out⟩
      · rw [hco] at ih
        simp [← ih]
      · match s0 with
        | Seg.lit l0 =>
          rw [hco] at ih
          simp only [List.mem_cons] at ih ⊢
          constructor
          · rintro (h | h)
            · exact absurd h (by simp)
            · exact Or.inr (ih.1 (Or.inr h))
          · rintro (h | h)
            · exact absurd h (by simp)
            · rcases ih.2 h with h' | h'
              · exact absurd h' (by simp)
              · exact Or.inr h'
        | Seg.tok t0 =>
          rw [hco] at ih
          simp only [List.mem_cons] at ih ⊢
          constructor
          · rintro (h | h)
            · exact absurd h (by simp)
            · exact Or.inr (ih.1 h)
          · rintro (h | h)
            · exact absurd h (by simp)
            · exact Or.inr (ih.2 h)

/-! ## Bold policy sets, the replacement map, and
`replace_placeholders_in_paragraph` -/

/-- A placeholder token `{{name}}`, braces included. -/
def ph (name : List Char) : List Char := '{' :: '{' :: (name ++ ['}', '}'])

def base_amo_tok : List Char := ph ['b', 'a', 's', 'e', '_', 'a', 'm', 'o']

def cgst_c_tok : List Char := ph ['c', 'g', 's', 't', '_', 'c']

def sgst_c_tok : List Char := ph ['s', 'g', 's', 't', '_', 'c']

def tax_t_tok : List Char := ph ['t', 'a', 'x', '_', 't']

def sub_total_words_tok : List Char :=
  ph ['s', 'u', 'b', '_', 't', 'o', 't', 'a', 'l', '_', 'w', 'o', 'r', 'd', 's']

def tax_to_words_tok : List Char :=
  ph ['t', 'a', 'x', '_', 't', 'o', '_', 'w', 'o', 'r', 'd', 's']

def sub_total_tok : List Char := ph ['s', 'u', 'b', '_', 't', 'o', 't', 'a', 'l']

/-- `BOLD_KEYS`: a replacement segment for these tokens is bold. -/
def BOLD_KEYS : List (List Char) :=
  [base_amo_tok, cgst_c_tok, sgst_c_tok, tax_t_tok, sub_total_words_tok, tax_to_words_tok]

/-- `BOLD_PARAGRAPH_KEYS`: their presence anywhere in the paragraph text
makes every emitted segment bold. -/
def BOLD_PARAGRAPH_KEYS : List (List Char) :=
  [sub_total_words_tok, tax_to_words_tok, sub_total_tok]

/-- The replacement map: an association list from token (braces included) to
replacement text. -/
abbrev Repl := List (List Char × List Char)

/-- `replacements.get(placeholder, placeholder)`: unknown tokens pass
through as their own literal text. -/
def replGet (m : Repl) (k : List Char) : List Char := (m.lookup k).getD k

/-- The literal `"{{"`. -/
def lbrace2 : List Char := ['{', '{']

/-- `paragraph_should_be_bold = any(k in full_text for k in BOLD_PARAGRAPH_KEYS)` -/
def pboldOf (full : List Char) : Bool :=
  BOLD_PARAGRAPH_KEYS.any fun k => decide (k <:+: full)

/-- `found`: at least one `PLACEHOLDER_RE` match in the text. -/
def foundIn (full : List Char) : Bool := (scan full).any Seg.isTok

/-- The `(text, is_bold)` segment list the loop in
`replace_placeholders_in_paragraph` builds: literal chunks keep the
paragraph-bold flag, each match becomes its replacement (or itself when the
token is unknown) with `is_bold = paragraph_should_be_bold or placeholder in
BOLD_KEYS`. -/
def segmentsOf (full : List Char) (repl : Repl) (pbold : Bool) : List (List Char × Bool) :=
  (scan full).map fun s =>
    match s with
    | Seg.lit l => (l, pbold)
    | Seg.tok t => (replGet repl t, pbold || decide (t ∈ BOLD_KEYS))

/-- The run-emission loop: skip empty texts (`if not text: continue`);
`add_run` creates a run with no explicit bold flag, and `r.bold = True` is
assigned only when the segment is bold. -/
def emitRuns (segs : List (List Char × Bool)) : List Run :=
  (segs.filter fun s => !s.1.isEmpty).map fun s =>
    { text := s.1, bold := if s.2 then some true else none }

/-- `replace_placeholders_in_paragraph(paragraph, replacements)` as a pure
transformation of the paragraph: no mutation when the text has no `{{` or
no complete match; otherwise every existing run's text is cleared and one
run per non-empty segment is appended. -/
def replace_placeholders_in_paragraph (p : Paragraph) (repl : Repl) : Paragraph :=
  let full_text := concatText p
  if lbrace2 <:+: full_text then
    if foundIn full_text then
      { runs := (p.runs.map fun r => { r with text := [] }) ++
          emitRuns (segmentsOf full_text repl (pboldOf full_text)) }
    else p
  else p

/-! ## Structural lemmas about the substitution -/

theorem scansRel_tok_lead {s : List Char} {out : List (Sum Char (List Char))}
    (h : ScansRel s out) : ∀ t, Sum.inr t ∈ out → lbrace2 <+: t := by
  induction h with
  | nil => simp
  | lit _ _ ih =>
    intro t ht
    rcases List.mem_cons.1 ht with h' | h'
    · exact absurd h' (by simp)
    · exact ih t h'
  | @tok inner rest out _ _ _ ih =>
    intro t ht
    rcases List.mem_cons.1 ht with h' | h'
    · rcases Sum.inr.inj h' with rfl
      exact ⟨inner ++ ['}', '}'], rfl⟩
    · exact ih t h'

theorem mem_flatten_part {α β : Type} (f : α → List β) :
    ∀ (l : List α), ∀ x ∈ l, f x <:+: (l.map f).flatten := by
  intro l
  induction l with
  | nil => simp
  | cons a rest ih =>
    intro x hx
    rcases List.mem_cons.1 hx with rfl | hx
    · exact ⟨[], (rest.map f).flatten, by simp⟩
    · obtain ⟨u, v, huv⟩ := ih x hx
      exact ⟨f a ++ u, v, by simp only [List.map_cons, List.flatten_cons, ← huv,
        List.append_assoc]⟩

/-- A found match means the text contains `{{`. -/
theorem foundIn_lbrace2 {full : List Char} (h : foundIn full = true) :
    lbrace2 <:+: full := by
  rcases List.any_eq_true.1 h with ⟨s, hs, hst⟩
  match s, hst with
  | Seg.lit l, hst => simp [Seg.isTok] at hst
  | Seg.tok t, _ =>
    have h1 : Sum.inr t ∈ scan1 full := coalesce_tok_mem.1 hs
    have hpre : lbrace2 <+: t := scansRel_tok_lead (scan1_sound full) t h1
    have hinf : t <:+: full := by
      have hx := mem_flatten_part seg1Text (scan1 full) (Sum.inr t) h1
      rw [scan1_join] at hx
      simpa [seg1Text] using hx
    exact List.IsInfix.trans hpre.isInfix hinf

/-- When a match is found: all existing runs cleared, new runs appended. -/
theorem replace_found {p : Paragraph} {repl : Repl}
    (h : foundIn (concatText p) = true) :
    (replace_placeholders_in_paragraph p repl).runs =
      (p.runs.map fun r => { r with text := [] }) ++
        emitRuns (segmentsOf (concatText p) repl (pboldOf (concatText p))) := by
  unfold replace_placeholders_in_paragraph
  rw [if_pos (foundIn_lbrace2 h), if_pos h]

/-- When no match is found the paragraph is returned unchanged. -/
theorem replace_not_found {p : Paragraph} {repl : Repl}
    (h : foundIn (concatText p) = false) :
    replace_placeholders_in_paragraph p repl = p := by
  unfold replace_placeholders_in_paragraph
  by_cases hin : lbrace2 <:+: concatText p
  · rw [if_pos hin, if_neg (by simp [h])]
  · rw [if_neg hin]

/-- When the text has no `{{` the paragraph is returned unchanged. -/
theorem replace_no_lbrace {p : Paragraph} {repl : Repl}
    (h : ¬ (lbrace2 <:+: concatText p)) :
    replace_placeholders_in_paragraph p repl = p := by
  unfold replace_placeholders_in_paragraph
  rw [if_neg h]

/-- Specification wording of C1: the original text in which every
placeholder match whose token is a key of the map is replaced by its mapped
value, tokens absent from the map and all literal text unchanged. -/
def specReplace (full : List Char) (repl : Repl) : List Char :=
  ((scan full).map fun s =>
    match s with
    | Seg.lit l => l
    | Seg.tok t => replGet repl t).flatten

theorem flatten_map_nil {α β : Type} (l : List α) :
    (l.map fun _ => ([] : List β)).flatten = [] := by
  induction l with
  | nil => rfl
  | cons a rest ih => simp [ih]

theorem flatten_fst_filter {β : Type} :
    ∀ (segs : List (List Char × β)),
      ((segs.filter fun s => !s.1.isEmpty).map Prod.fst).flatten =
        (segs.map Prod.fst).flatten := by
  intro segs
  induction segs with
  | nil => rfl
  | cons s rest ih =>
    rcases he : s.1.isEmpty with _ | _
    · simp [List.filter_cons, he, ih]
    · have h0 : s.1 = [] := List.isEmpty_iff.1 he
      simp [List.filter_cons, he, ih, h0]

/-! ## Blocks and `remove_trailing_empty_paragraphs_from_block` -/

/-- A table cell carries its own paragraph list (nested tables omitted: no
claim inspects the inside of a table). -/
structure TCell where
  paragraphs : List Paragraph
deriving DecidableEq

/-- A table: ordered rows of cells. -/
structure Table where
  rows : List (List TCell)
deriving DecidableEq

/-- A block (body, header, footer): ordered paragraphs and tables. -/
structure Block where
  paragraphs : List Paragraph
  tables : List Table
deriving DecidableEq

/-- Python `str.strip()`: remove leading and trailing whitespace. -/
def pyStrip (s : List Char) : List Char :=
  ((s.dropWhile Char.isWhitespace).reverse.dropWhile Char.isWhitespace).reverse

/-- `is_paragraph_empty`: false when the concatenated text has non-whitespace
content, false when some run's text has non-whitespace content, else true. -/
def is_paragraph_empty (p : Paragraph) : Bool :=
  if !(concatText p).isEmpty && !(pyStrip (concatText p)).isEmpty then false
  else if p.runs.any (fun r => !r.text.isEmpty && !(pyStrip r.text).isEmpty) then false
  else true

/-- The `while` loop of `remove_trailing_empty_paragraphs_from_block`:
while the block has paragraphs and the last one is empty, remove it.
(The `parent is None` break never fires for paragraphs inside a real
document tree and is not modelled.) -/
def dropTrailingEmpty (ps : List Paragraph) : List Paragraph :=
  match hq : ps.getLast? with
  | none => ps
  | some last =>
    if is_paragraph_empty last then dropTrailingEmpty ps.dropLast else ps
termination_by ps.length
decreasing_by
  have hne : ps ≠ [] := by
    intro hnil
    rw [hnil] at hq
    exact Option.noConfusion hq
  rw [List.length_dropLast]
  have : 0 < ps.length := List.length_pos.2 hne
  omega

def remove_trailing_empty_paragraphs_from_block (b : Block) : Block :=
  { b with paragraphs := dropTrailingEmpty b.paragraphs }

/-- `pyStrip` result is empty exactly when every character is whitespace. -/
theorem pyStrip_isEmpty_iff {s : List Char} :
    pyStrip s = [] ↔ ∀ c ∈ s, c.isWhitespace = true := by
  unfold pyStrip
  rw [List.reverse_eq_nil_iff, List.dropWhile_eq_nil_iff]
  constructor
  · intro h c hc
    by_cases hw : c.isWhitespace = true
    · exact hw
    · exfalso
      have hsplit := List.takeWhile_append_dropWhile
        (p := Char.isWhitespace) (l := s)
      have hcd : c ∈ s.dropWhile Char.isWhitespace := by
        rcases List.mem_append.1 (by rw [hsplit]; exact hc) with h1 | h1
        · exact absurd (List.mem_takeWhile_imp h1) hw
        · exact h1
      exact hw (h c (List.mem_reverse.2 hcd))
  · intro h c hc
    exact h c (List.dropWhile_sublist Char.isWhitespace |>.mem (List.mem_reverse.1 hc))

/-- `is_paragraph_empty` holds exactly when no run holds any non-whitespace
character. -/
theorem is_paragraph_empty_iff {p : Paragraph} :
    is_paragraph_empty p = true ↔ ∀ c ∈ concatText p, c.isWhitespace = true := by
  unfold is_paragraph_empty
  constructor
  · intro h c hc
    by_contra hw
    have hne : ¬ (concatText p).isEmpty := by
      intro he
      rw [List.isEmpty_iff.1 he] at hc
      exact absurd hc (List.not_mem_nil c)
    have hst : ¬ (pyStrip (concatText p)).isEmpty := by
      intro he
      exact hw (pyStrip_isEmpty_iff.1 (List.isEmpty_iff.1 he) c hc)
    rw [if_pos (by simp [hne, hst])] at h
    exact Bool.noConfusion h
  · intro h
    have h1 : (pyStrip (concatText p)).isEmpty = true :=
      List.isEmpty_iff.2 (pyStrip_isEmpty_iff.2 h)
    rw [if_neg (by simp [h1])]
    have h2 : ¬ p.runs.any (fun r => !r.text.isEmpty && !(pyStrip r.text).isEmpty) = true := by
      intro hany
      rcases List.any_eq_true.1 hany with ⟨r, hr, hcond⟩
      have hstrip : (!(pyStrip r.text).isEmpty) = true := by
        rw [Bool.and_eq_true] at hcond
        exact hcond.2
      have hall : ∀ c ∈ r.text, c.isWhitespace = true := by
        intro c hc
        refine h c ?_
        unfold concatText
        exact List.mem_flatten.2 ⟨r.text, List.mem_map.2 ⟨r, hr, rfl⟩, hc⟩
      rw [List.isEmpty_iff.2 (pyStrip_isEmpty_iff.2 hall)] at hstrip
      exact Bool.noConfusion hstrip
    rw [if_neg h2]

theorem dropTrailingEmpty_nil : dropTrailingEmpty [] = [] := by
  rw [dropTrailingEmpty]
  rfl

theorem dropTrailingEmpty_ne_nil (ps : List Paragraph) (hne : ps ≠ []) :
    dropTrailingEmpty ps =
      if is_paragraph_empty (ps.getLast hne) then dropTrailingEmpty ps.dropLast
      else ps := by
  rw [dropTrailingEmpty, List.getLast?_eq_getLast ps hne]

/-- The loop removes exactly the maximal run of empty paragraphs at the end. -/
theorem dropTrailingEmpty_eq_aux :
    ∀ (n : Nat) (ps : List Paragraph), ps.length ≤ n →
      dropTrailingEmpty ps = (ps.reverse.dropWhile is_paragraph_empty).reverse := by
  intro n
  induction n with
  | zero =>
    intro ps h
    have : ps = [] := List.length_eq_zero.1 (Nat.le_zero.1 h)
    subst this
    exact dropTrailingEmpty_nil
  | succ n ih =>
    intro ps h
    rcases List.eq_nil_or_concat ps with rfl | ⟨front, last, rfl⟩
    · exact dropTrailingEmpty_nil
    · rw [List.concat_eq_append] at h ⊢
      have hne : front ++ [last] ≠ [] := by simp
      have hlast : (front ++ [last]).getLast hne = last := List.getLast_concat _
      have hdl : (front ++ [last]).dropLast = front := List.dropLast_concat
      rw [dropTrailingEmpty_ne_nil _ hne, hlast, hdl]
      rcases hemp : is_paragraph_empty last with _ | _
      · rw [if_neg (by simp [hemp])]
        rw [List.reverse_append, List.reverse_singleton, List.singleton_append,
          List.dropWhile_cons_of_neg (by simp [hemp])]
        simp
      · rw [if_pos (by simp [hemp])]
        rw [ih front (by simp at h; omega)]
        rw [List.reverse_append, List.reverse_singleton, List.singleton_append,
          List.dropWhile_cons_of_pos (by simp [hemp])]

theorem dropTrailingEmpty_eq (ps : List Paragraph) :
    dropTrailingEmpty ps = (ps.reverse.dropWhile is_paragraph_empty).reverse :=
  dropTrailingEmpty_eq_aux ps.length ps (Nat.le_refl _)

/-! ## `get_next_suffix_for_month`: the filename ledger scan -/

/-- `int()` on a non-empty decimal digit string. -/
def digitsToNat (ds : List Char) : Nat :=
  ds.foldl (fun a c => a * 10 + (c.toNat - '0'.toNat)) 0

/-- `Path.stem`: the filename without its final suffix.  The suffix is the
part after the last dot when that dot is neither the first nor the last
character of the name. -/
def pyStem (name : List Char) : List Char :=
  let r := name.reverse
  let ext := r.takeWhile fun c => c ≠ '.'
  match r.dropWhile (fun c => c ≠ '.') with
  | '.' :: m :: ms => if ext.isEmpty then name else (m :: ms).reverse
  | _ => name

/-- The literal `GB-`. -/
def GBdash : List Char := ['G', 'B', '-']

/-- `re.search` of `GB-<month_year>-(\d+)` on a string: try the pattern at
each position from the left; at a position where the literal part matches
and at least one digit follows, the greedy `(\d+)` captures the maximal
digit run. -/
def findGBSuffix (month : List Char) : List Char → Option Nat
  | [] => none
  | c :: cs =>
    let pat := GBdash ++ month ++ ['-']
    if pat.isPrefixOf (c :: cs) then
      let ds := ((c :: cs).drop pat.length).takeWhile Char.isDigit
      if ds.isEmpty then findGBSuffix month cs
      else some (digitsToNat ds)
    else findGBSuffix month cs

/-- The literal `.pdf`. -/
def dotPdf : List Char := ['.', 'p', 'd', 'f']

/-- `f"{n:02d}"`: decimal digits, zero-padded on the left to width two. -/
def natPad2 (n : Nat) : List Char :=
  let d := Nat.toDigits 10 n
  if d.length < 2 then List.replicate (2 - d.length) '0' ++ d else d

/-- The body of the scan loop in `get_next_suffix_for_month`: for a `.pdf`
file, search its stem and raise the running maximum when the captured value
exceeds it; other files leave the maximum unchanged. -/
def ledgerStep (month : List Char) (acc : Nat) (name : List Char) : Nat :=
  if dotPdf.isSuffixOf name then
    match findGBSuffix month (pyStem name) with
    | some v => if v > acc then v else acc
    | none => acc
  else acc

/-- `get_next_suffix_for_month(month_year)` over the names of the files in
the output directory: for every `*.pdf` file take its stem, search it for
`GB-<month_year>-(\d+)`, track the maximal captured value, and return
`max + 1` zero-padded to at least two digits. -/
def get_next_suffix_for_month (month : List Char) (files : List (List Char)) : List Char :=
  natPad2 (files.foldl (ledgerStep month) 0 + 1)

/-- The numeric suffixes the scan extracts, in file order. -/
def gbSuffixes (month : List Char) (files : List (List Char)) : List Nat :=
  files.filterMap fun name =>
    if dotPdf.isSuffixOf name then findGBSuffix month (pyStem name) else none

/-! ## The financial computation in `generate_invoice`

Python float arithmetic is modelled by exact rational arithmetic. -/

/-- `sub_total = math.ceil(y_value * 1.02)` -/
def pySubTotal (y : ℚ) : ℤ := ⌈y * (102 / 100)⌉

/-- `base_amount = sub_total / 1.18` -/
def pyBaseAmount (y : ℚ) : ℚ := (pySubTotal y : ℚ) / (118 / 100)

/-- `cgst = base_amount * 0.09` -/
def pyCgst (y : ℚ) : ℚ := pyBaseAmount y * (9 / 100)

/-- `sgst = base_amount * 0.09` -/
def pySgst (y : ℚ) : ℚ := pyBaseAmount y * (9 / 100)

/-- `sub_total_2 = base_amount + cgst + sgst` -/
def pySubTotal2 (y : ℚ) : ℚ := pyBaseAmount y + pyCgst y + pySgst y

/-- `tax_total = cgst + sgst` -/
def pyTaxTotal (y : ℚ) : ℚ := pyCgst y + pySgst y

/-- `f"{x:.2f}"` scaled to an integer: the value rounded to two decimal
places, times 100. -/
def fmt2 (q : ℚ) : ℤ := round (q * 100)

/-! ## Request validation in `generate_invoice` -/

/-- Python `str.isdigit()`: non-empty and all digits. -/
def pyIsDigit (s : List Char) : Bool := !s.isEmpty && s.all Char.isDigit

/-- The submitted form of the `/generate` route. -/
structure GenForm where
  y_value : List Char
  date : Option (List Char)
  invoice_suffix : List Char
deriving DecidableEq

/-- Where the `/generate` handler ends up relative to its validation
prefix. -/
inductive GenOutcome where
  /-- `return "Invalid y_value", 400` -/
  | badAmount
  /-- `return "Invoice suffix must be numeric", 400` -/
  | badSuffix
  /-- `datetime.strptime` raises and no handler catches it -/
  | dateException
  /-- validation passed; the template is loaded next -/
  | proceed
deriving DecidableEq

/-- The HTTP status the client observes for each outcome (an unhandled
exception becomes an internal server error). -/
def httpStatus : GenOutcome → Nat
  | .badAmount => 400
  | .badSuffix => 400
  | .dateException => 500
  | .proceed => 200

/-- Whether any processing beyond validation (template load, file write)
has started by the time the outcome is determined. -/
def processingStarted : GenOutcome → Bool
  | .proceed => true
  | _ => false

/-- The validation prefix of `generate_invoice`, lines 319-335 of `app.py`:
`float(request.form['y_value'])` guarded by try/except → 400; the suffix
`isdigit` check → 400; then the unguarded `datetime.strptime(date_value,
"%Y-%m-%d")`.  `floatParse` and `dateParse` model the library parsers
`float()` and `strptime` (returning `none` where Python raises); the
current date default for a missing `date` field is `defaultDate`. -/
def generate_invoice_validate (floatParse : List Char → Option ℚ)
    (dateParse : List Char → Option (Nat × Nat × Nat))
    (defaultDate : List Char) (form : GenForm) : GenOutcome :=
  match floatParse form.y_value with
  | none => .badAmount
  | some _ =>
    let date_value := form.date.getD defaultDate
    let invoice_suffix := pyStrip form.invoice_suffix
    if !pyIsDigit invoice_suffix then .badSuffix
    else
      match dateParse date_value with
      | none => .dateException
      | some _ => .proceed

/-! ## Helper lemmas for the claim theorems -/

theorem emitRuns_text (segs : List (List Char × Bool)) :
    ((emitRuns segs).map Run.text).flatten = (segs.map Prod.fst).flatten := by
  unfold emitRuns
  rw [List.map_map]
  have : (Run.text ∘ fun s : List Char × Bool =>
      ({ text := s.1, bold := if s.2 then some true else none } : Run)) = Prod.fst := by
    funext s
    rfl
  rw [this, flatten_fst_filter]

theorem segmentsOf_fst (full : List Char) (repl : Repl) (pbold : Bool) :
    ((segmentsOf full repl pbold).map Prod.fst).flatten = specReplace full repl := by
  unfold segmentsOf specReplace
  rw [List.map_map]
  apply congrArg
  apply List.map_congr_left
  intro s _
  cases s <;> rfl

theorem emitRuns_bold {segs : List (List Char × Bool)} {r : Run}
    (hr : r ∈ emitRuns segs) : ∃ s ∈ segs, r.bold = (if s.2 then some true else none) := by
  unfold emitRuns at hr
  rcases List.mem_map.1 hr with ⟨s, hs, rfl⟩
  exact ⟨s, List.mem_of_mem_filter hs, rfl⟩

theorem emitRuns_text_ne {segs : List (List Char × Bool)} {r : Run}
    (hr : r ∈ emitRuns segs) : r.text ≠ [] := by
  unfold emitRuns at hr
  rcases List.mem_map.1 hr with ⟨s, hs, rfl⟩
  have := List.of_mem_filter hs
  simpa [List.isEmpty_iff] using this

theorem segmentsOf_pbold_snd {full : List Char} {repl : Repl} {s : List Char × Bool}
    (hs : s ∈ segmentsOf full repl true) : s.2 = true := by
  unfold segmentsOf at hs
  rcases List.mem_map.1 hs with ⟨seg, _, rfl⟩
  cases seg <;> simp

/-- Claim C1: for every paragraph and every replacement map, after
`replace_placeholders_in_paragraph` runs, the concatenation of the
paragraph's run texts equals the original concatenated text in which every
placeholder match whose token is a key of the map is replaced by its mapped
value, while tokens absent from the map and all literal non-placeholder
text remain literally unchanged. -/
theorem C1_replacement_concat_text (p : Paragraph) (repl : Repl) :
    concatText (replace_placeholders_in_paragraph p repl) =
      specReplace (concatText p) repl := by
  rcases hf : foundIn (concatText p) with _ | _
  · rw [replace_not_found hf]
    unfold specReplace
    have hcongr : ∀ s ∈ scan (concatText p),
        (match s with
          | Seg.lit l => l
          | Seg.tok t => replGet repl t) = Seg.text s := by
      intro s hs
      match s with
      | Seg.lit l => rfl
      | Seg.tok t =>
        exfalso
        have halt := List.any_eq_false.1 (by simpa [foundIn] using hf)
        exact halt (Seg.tok t) hs rfl
    rw [List.map_congr_left hcongr, scan_join]
  · show ((replace_placeholders_in_paragraph p repl).runs.map Run.text).flatten = _
    rw [replace_found hf, List.map_append, List.flatten_append, List.map_map]
    have hz : (p.runs.map (Run.text ∘ fun r => { r with text := ([] : List Char) })) =
        p.runs.map fun _ => [] := by
      apply List.map_congr_left
      intro r _
      rfl
    rw [hz, flatten_map_nil, List.nil_append, emitRuns_text, segmentsOf_fst]

/-- Specification wording of C2's no-paragraph-bold case: exactly the
replacement segments whose source token is in the segment-bold set are
bold; literal segments are not. -/
def segmentBoldSpec (full : List Char) (repl : Repl) : List (List Char × Bool) :=
  (scan full).map fun s =>
    match s with
    | Seg.lit l => (l, false)
    | Seg.tok t => (replGet repl t, decide (t ∈ BOLD_KEYS))

theorem drop_replace_emit {p : Paragraph} {repl : Repl}
    (hf : foundIn (concatText p) = true) :
    (replace_placeholders_in_paragraph p repl).runs.drop p.runs.length =
      emitRuns (segmentsOf (concatText p) repl (pboldOf (concatText p))) := by
  rw [replace_found hf]
  have hlen : (p.runs.map fun r => { r with text := ([] : List Char) }).length =
      p.runs.length := List.length_map _ _
  rw [← hlen, List.drop_left]

/-- Claim C2: with a paragraph-bold token present as a literal substring of
the concatenated text, every emitted run (runs for plain literal text
included) is bold; with no paragraph-bold token present, exactly the
replacement runs whose source token is in the segment-bold set are bold and
the literal-text runs around them are not. -/
theorem C2_bold_policy (p : Paragraph) (repl : Repl)
    (hf : foundIn (concatText p) = true) :
    (pboldOf (concatText p) = true →
      ∀ r ∈ (replace_placeholders_in_paragraph p repl).runs.drop p.runs.length,
        r.bold = some true)
    ∧ (pboldOf (concatText p) = false →
      (replace_placeholders_in_paragraph p repl).runs.drop p.runs.length =
        emitRuns (segmentBoldSpec (concatText p) repl)) := by
  constructor
  · intro hpb r hr
    rw [drop_replace_emit hf, hpb] at hr
    rcases emitRuns_bold hr with ⟨s, hs, hb⟩
    rw [segmentsOf_pbold_snd hs] at hb
    simpa using hb
  · intro hpb
    rw [drop_replace_emit hf, hpb]
    apply congrArg
    unfold segmentsOf segmentBoldSpec
    apply List.map_congr_left
    intro s _
    cases s <;> simp

/-- Formalisation of claim C4 as stated: after a found match, the new runs
carry an explicit bold flag `some s.2` — explicitly true or false per the
segment's computed boldness. -/
def claimC4 : Prop :=
  ∀ (p : Paragraph) (repl : Repl), foundIn (concatText p) = true →
    (replace_placeholders_in_paragraph p repl).runs =
      (p.runs.map fun r => { r with text := [] }) ++
        (((segmentsOf (concatText p) repl (pboldOf (concatText p))).filter
            fun s => !s.1.isEmpty).map fun s => { text := s.1, bold := some s.2 })

/-- Claim C4, as stated, is false: for a paragraph whose only content is
the unknown token `{{x}}`, the emitted run's bold flag is `none` (unset,
inherited), not the explicit `some false` the claim requires. -/
theorem C4_counterexample : ¬ claimC4 := by
  intro h
  have hinst := h ⟨[⟨ph ['x'], none⟩]⟩ [] (by decide)
  exact absurd hinst (by decide)

/-- Claim C4 amended: after a found match all existing runs keep only empty
text, one run is emitted per non-empty segment in order, and each new run's
bold flag is set to true for a bold segment and left unset (`none`,
inherited — never an explicit false) otherwise. -/
theorem C4_amended (p : Paragraph) (repl : Repl)
    (hf : foundIn (concatText p) = true) :
    (replace_placeholders_in_paragraph p repl).runs =
      (p.runs.map fun r => { r with text := [] }) ++
        emitRuns (segmentsOf (concatText p) repl (pboldOf (concatText p)))
    ∧ ∀ r ∈ (replace_placeholders_in_paragraph p repl).runs.drop p.runs.length,
        r.bold ≠ some false := by
  refine ⟨replace_found hf, ?_⟩
  intro r hr
  rw [drop_replace_emit hf] at hr
  rcases emitRuns_bold hr with ⟨s, _, hb⟩
  rcases hs2 : s.2 with _ | _
  · rw [hs2] at hb
    simp only [Bool.false_eq_true, if_false] at hb
    simp [hb]
  · rw [hs2] at hb
    simp only [if_true] at hb
    simp [hb]

/-- Claim C5: no mutation at all when the text contains no opening braces,
and none when it contains them without any complete match — for every
replacement map the paragraph is returned unchanged. -/
theorem C5_no_mutation (p : Paragraph) (repl : Repl) :
    (¬ (lbrace2 <:+: concatText p) → replace_placeholders_in_paragraph p repl = p)
    ∧ ((lbrace2 <:+: concatText p) → foundIn (concatText p) = false →
        replace_placeholders_in_paragraph p repl = p) :=
  ⟨replace_no_lbrace, fun _ h => replace_not_found h⟩

/-- Claim C10: after a found match the original runs are retained in place
with empty text, the new runs are appended after them, and every appended
run has non-empty text (a token replaced by the empty string emits no
run). -/
theorem C10_run_structure (p : Paragraph) (repl : Repl)
    (hf : foundIn (concatText p) = true) :
    (replace_placeholders_in_paragraph p repl).runs.take p.runs.length =
        (p.runs.map fun r => { r with text := [] })
    ∧ (replace_placeholders_in_paragraph p repl).runs.drop p.runs.length =
        emitRuns (segmentsOf (concatText p) repl (pboldOf (concatText p)))
    ∧ ∀ r ∈ (replace_placeholders_in_paragraph p repl).runs.drop p.runs.length,
        r.text ≠ [] := by
  refine ⟨?_, drop_replace_emit hf, ?_⟩
  · rw [replace_found hf]
    have hlen : (p.runs.map fun r => { r with text := ([] : List Char) }).length =
        p.runs.length := List.length_map _ _
    rw [← hlen, List.take_left]
  · intro r hr
    rw [drop_replace_emit hf] at hr
    exact emitRuns_text_ne hr

/-- Claim C3: the scan finds exactly the left-to-right, non-overlapping,
non-nested matches of `{{`, one-or-more non-`}` characters (greedy up to the
first `}}`), `}}` — it satisfies the declarative decomposition relation and
is the unique decomposition satisfying it — and all text before, between
and after the matches is preserved verbatim in the literal segments. -/
theorem C3_scan_exact (t : List Char) :
    ScansRel t (scan1 t)
    ∧ (∀ out, ScansRel t out → out = scan1 t)
    ∧ ((scan t).map Seg.text).flatten = t
    ∧ (∀ tt, Seg.tok tt ∈ scan t ↔ Sum.inr tt ∈ scan1 t) :=
  ⟨scan1_sound t, fun _ h => scansRel_unique h, scan_join t, fun _ => coalesce_tok_mem⟩

/-- Witness for C3 at the concrete text `a{{b}}`: the hand-built derivation
of the declarative relation forces exactly the output of the scan. -/
theorem C3_scan_exact_witness :
    [Sum.inl 'a', Sum.inr (ph ['b'])] = scan1 ('a' :: ph ['b']) :=
  (C3_scan_exact ('a' :: ph ['b'])).2.1 _
    (ScansRel.lit (tryMatch_eq_none_iff.1 (by decide))
      (@ScansRel.tok ['b'] [] [] (by decide) (by decide) ScansRel.nil))

/-- Claim C6: the trim removes paragraphs from the end of the block exactly
while they are empty (no non-whitespace text in any run), stops at the
first non-empty paragraph from the end, leaves all tables and non-trailing
paragraphs untouched, and reduces an all-empty block to the empty list. -/
theorem C6_trailing_trim (b : Block) :
    (remove_trailing_empty_paragraphs_from_block b).tables = b.tables
    ∧ (remove_trailing_empty_paragraphs_from_block b).paragraphs =
        (b.paragraphs.reverse.dropWhile is_paragraph_empty).reverse
    ∧ (∀ p, is_paragraph_empty p = true ↔ ∀ c ∈ concatText p, c.isWhitespace = true)
    ∧ ((∀ p ∈ b.paragraphs, is_paragraph_empty p = true) →
        (remove_trailing_empty_paragraphs_from_block b).paragraphs = []) := by
  refine ⟨rfl, dropTrailingEmpty_eq b.paragraphs, fun _ => is_paragraph_empty_iff, ?_⟩
  intro hall
  show dropTrailingEmpty b.paragraphs = []
  rw [dropTrailingEmpty_eq, List.reverse_eq_nil_iff, List.dropWhile_eq_nil_iff]
  intro p hp
  exact hall p (List.mem_reverse.1 hp)

/-- An empty-text paragraph of one run. -/
def emptyPara : Paragraph := ⟨[⟨[], none⟩]⟩

/-- A paragraph with the single run text `x`. -/
def xPara : Paragraph := ⟨[⟨['x'], none⟩]⟩

/-- Witness for C6: a block ending in three empty paragraphs after a
non-empty one retains exactly the non-empty one and what precedes it; an
all-empty block is reduced to no paragraphs. -/
theorem C6_trailing_trim_witness :
    (remove_trailing_empty_paragraphs_from_block
        ⟨[xPara, emptyPara, emptyPara, emptyPara], []⟩).paragraphs = [xPara]
    ∧ (remove_trailing_empty_paragraphs_from_block
        ⟨[emptyPara, emptyPara], []⟩).paragraphs = [] := by
  constructor
  · exact (C6_trailing_trim ⟨[xPara, emptyPara, emptyPara, emptyPara], []⟩).2.1.trans
      (by decide)
  · exact (C6_trailing_trim ⟨[emptyPara, emptyPara], []⟩).2.2.2 (by decide)

theorem ledgerStep_max (month : List Char) (acc : Nat) (f : List Char) :
    ledgerStep month acc f =
      max acc ((if dotPdf.isSuffixOf f then findGBSuffix month (pyStem f)
        else none).getD 0) := by
  unfold ledgerStep
  rcases hs : dotPdf.isSuffixOf f with _ | _
  · rw [if_neg (by simp [hs]), if_neg (by simp [hs])]
    simp
  · rw [if_pos (by simp [hs]), if_pos (by simp [hs])]
    rcases hg : findGBSuffix month (pyStem f) with _ | v
    · simp
    · simp only [Option.getD_some]
      split <;> omega

theorem gbSuffixes_cons_foldr (month : List Char) (f : List Char)
    (rest : List (List Char)) :
    (gbSuffixes month (f :: rest)).foldr max 0 =
      max ((if dotPdf.isSuffixOf f then findGBSuffix month (pyStem f) else none).getD 0)
        ((gbSuffixes month rest).foldr max 0) := by
  unfold gbSuffixes
  simp only [List.filterMap_cons]
  rcases ho : (if dotPdf.isSuffixOf f = true then findGBSuffix month (pyStem f) else none)
      with _ | v
  · simp
  · simp [List.foldr_cons]

theorem ledger_foldl_eq (month : List Char) :
    ∀ (files : List (List Char)) (acc : Nat),
      files.foldl (ledgerStep month) acc =
        max acc ((gbSuffixes month files).foldr max 0) := by
  intro files
  induction files with
  | nil =>
    intro acc
    simp [gbSuffixes]
  | cons f rest ih =>
    intro acc
    rw [List.foldl_cons, ih, ledgerStep_max, gbSuffixes_cons_foldr]
    omega

/-- Claim C7: `get_next_suffix_for_month` returns the zero-padded decimal
string (at least two digits wide) of one plus the maximal numeric suffix
captured by `GB-<month>-(\d+)` over the `.pdf` filenames, `01` when no
filename matches, non-matching filenames ignored; for month `0125` over
`GB-0125-01.pdf`, `GB-0125-03.pdf`, `GB-0225-09.pdf` it returns `04`. -/
theorem C7_next_suffix (month : List Char) (files : List (List Char)) :
    get_next_suffix_for_month month files =
        natPad2 ((gbSuffixes month files).foldr max 0 + 1)
    ∧ (gbSuffixes month files = [] →
        get_next_suffix_for_month month files = ['0', '1'])
    ∧ get_next_suffix_for_month ['0', '1', '2', '5']
        [GBdash ++ ['0', '1', '2', '5', '-', '0', '1'] ++ dotPdf,
         GBdash ++ ['0', '1', '2', '5', '-', '0', '3'] ++ dotPdf,
         GBdash ++ ['0', '2', '2', '5', '-', '0', '9'] ++ dotPdf] = ['0', '4'] := by
  have hfold : get_next_suffix_for_month month files =
      natPad2 ((gbSuffixes month files).foldr max 0 + 1) := by
    unfold get_next_suffix_for_month
    rw [ledger_foldl_eq month files 0]
    have : max 0 ((gbSuffixes month files).foldr max 0) =
        (gbSuffixes month files).foldr max 0 := by omega
    rw [this]
  refine ⟨hfold, ?_, by decide⟩
  intro hnil
  rw [hfold, hnil]
  rfl

/-- Witness for C7: over a single non-matching filename the next suffix is
`01`. -/
theorem C7_next_suffix_witness :
    get_next_suffix_for_month ['0', '1', '2', '5']
      [['n', 'o', 't', 'e', 's'] ++ dotPdf] = ['0', '1'] :=
  (C7_next_suffix ['0', '1', '2', '5'] [['n', 'o', 't', 'e', 's'] ++ dotPdf]).2.1
    (by decide)

/-- Claim C8: the financial computation rounds the 2% markup up (never
down) to a whole unit, backs the base amount out of an 18% combined rate,
takes two 9% components, and sums them; at `y = 1000` the two-decimal
values are 1020.00, 864.41, 77.80, 77.80 and 155.59. -/
theorem C8_financial (y : ℚ) :
    y * (102 / 100) ≤ (pySubTotal y : ℚ)
    ∧ (pySubTotal y : ℤ) = ⌈y * (102 / 100)⌉
    ∧ pyBaseAmount y = (pySubTotal y : ℚ) / (118 / 100)
    ∧ pyCgst y = pyBaseAmount y * (9 / 100)
    ∧ pySgst y = pyCgst y
    ∧ pyTaxTotal y = pyCgst y + pySgst y
    ∧ pySubTotal2 y = pyBaseAmount y + pyCgst y + pySgst y
    ∧ pySubTotal 1000 = 1020
    ∧ fmt2 (pyBaseAmount 1000) = 86441
    ∧ fmt2 (pyCgst 1000) = 7780
    ∧ fmt2 (pySgst 1000) = 7780
    ∧ fmt2 (pyTaxTotal 1000) = 15559 := by
  refine ⟨Int.le_ceil _, rfl, rfl, rfl, rfl, rfl, rfl, ?_, ?_, ?_, ?_, ?_⟩
  · unfold pySubTotal
    norm_num
  · unfold fmt2 pyBaseAmount pySubTotal
    norm_num [round_eq]
  · unfold fmt2 pyCgst pyBaseAmount pySubTotal
    norm_num [round_eq]
  · unfold fmt2 pySgst pyBaseAmount pySubTotal
    norm_num [round_eq]
  · unfold fmt2 pyTaxTotal pyCgst pySgst pyBaseAmount pySubTotal
    norm_num [round_eq]

/-- Formalisation of claim C9 as stated: every validation failure — a
non-numeric amount, a non-numeric suffix, or a malformed date — yields a
client (4xx) error with no processing started; quantified over the library
parsers that model `float()` and `strptime`. -/
def claimC9 : Prop :=
  ∀ (floatParse : List Char → Option ℚ)
    (dateParse : List Char → Option (Nat × Nat × Nat))
    (defaultDate : List Char) (form : GenForm),
    (floatParse form.y_value = none
      ∨ pyIsDigit (pyStrip form.invoice_suffix) = false
      ∨ dateParse (form.date.getD defaultDate) = none) →
    400 ≤ httpStatus (generate_invoice_validate floatParse dateParse defaultDate form)
    ∧ httpStatus (generate_invoice_validate floatParse dateParse defaultDate form) < 500
    ∧ processingStarted
        (generate_invoice_validate floatParse dateParse defaultDate form) = false

/-- Claim C9, as stated, is false: a request whose amount and suffix are
valid but whose date `strptime` rejects raises an uncaught exception —
an HTTP 500 server error, not a 4xx client error. -/
theorem C9_counterexample : ¬ claimC9 := by
  intro h
  rcases h (fun _ => some 1000) (fun _ => none) ['d'] ⟨['1'], none, ['1']⟩
      (Or.inr (Or.inr rfl)) with ⟨_, hlt, _⟩
  have hst : httpStatus (generate_invoice_validate (fun _ => some 1000) (fun _ => none)
      ['d'] ⟨['1'], none, ['1']⟩) = 500 := by decide
  rw [hst] at hlt
  exact absurd hlt (by omega)

/-- Claim C9 amended: a non-numeric amount or a non-numeric suffix is
rejected with a 400 client error, and a malformed date raises an uncaught
exception surfaced as a 500 server error; in every one of these cases the
handler stops before any template load or file write. -/
theorem C9_amended (floatParse : List Char → Option ℚ)
    (dateParse : List Char → Option (Nat × Nat × Nat))
    (defaultDate : List Char) (form : GenForm) :
    (floatParse form.y_value = none →
      generate_invoice_validate floatParse dateParse defaultDate form = .badAmount)
    ∧ (∀ y, floatParse form.y_value = some y →
        pyIsDigit (pyStrip form.invoice_suffix) = false →
        generate_invoice_validate floatParse dateParse defaultDate form = .badSuffix)
    ∧ (∀ y, floatParse form.y_value = some y →
        pyIsDigit (pyStrip form.invoice_suffix) = true →
        dateParse (form.date.getD defaultDate) = none →
        generate_invoice_validate floatParse dateParse defaultDate form = .dateException)
    ∧ (∀ g, g ≠ GenOutcome.proceed → processingStarted g = false)
    ∧ httpStatus .badAmount = 400 ∧ httpStatus .badSuffix = 400
    ∧ httpStatus .dateException = 500 := by
  refine ⟨?_, ?_, ?_, ?_, rfl, rfl, rfl⟩
  · intro hf
    unfold generate_invoice_validate
    rw [hf]
  · intro y hf hd
    unfold generate_invoice_validate
    rw [hf]
    simp only [hd, Bool.not_false, if_true]
  · intro y hf hd hdate
    unfold generate_invoice_validate
    rw [hf]
    simp only [hd, Bool.not_true, Bool.false_eq_true, if_false, hdate]
  · intro g hg
    cases g with
    | proceed => exact absurd rfl hg
    | badAmount => rfl
    | badSuffix => rfl
    | dateException => rfl

/-- Witness for the amended C9 at concrete parsers and forms: an
unparsable amount yields the 400 `badAmount` return, and a malformed date
yields the uncaught-exception outcome. -/
theorem C9_amended_witness :
    generate_invoice_validate (fun _ => none) (fun _ => none) ['d']
        ⟨['z'], none, ['1']⟩ = GenOutcome.badAmount
    ∧ generate_invoice_validate (fun _ => some 1000) (fun _ => none) ['d']
        ⟨['1'], none, ['1']⟩ = GenOutcome.dateException :=
  ⟨(C9_amended (fun _ => none) (fun _ => none) ['d'] ⟨['z'], none, ['1']⟩).1 rfl,
    (C9_amended (fun _ => some 1000) (fun _ => none) ['d'] ⟨['1'], none, ['1']⟩).2.2.1
      1000 rfl (by decide) rfl⟩

/-- Witness for C2 at concrete inputs: for the text `x {{base_amo}} y` with
no paragraph-bold token, the appended runs are exactly those of the
specification segment list (the `{{base_amo}}` replacement bold, the
literal text around it not). -/
theorem C2_bold_policy_witness :
    (replace_placeholders_in_paragraph
        ⟨[⟨['x', ' '] ++ base_amo_tok ++ [' ', 'y'], none⟩]⟩
        [(base_amo_tok, ['9'])]).runs.drop
      (Paragraph.mk [⟨['x', ' '] ++ base_amo_tok ++ [' ', 'y'], none⟩]).runs.length =
      emitRuns (segmentBoldSpec
        (concatText ⟨[⟨['x', ' '] ++ base_amo_tok ++ [' ', 'y'], none⟩]⟩)
        [(base_amo_tok, ['9'])]) :=
  (C2_bold_policy ⟨[⟨['x', ' '] ++ base_amo_tok ++ [' ', 'y'], none⟩]⟩
    [(base_amo_tok, ['9'])] (by decide)).2 (by decide)

/-- Witness for the amended C4 at a concrete input: the rebuilt run list of
a paragraph holding only `{{x}}` under the empty map. -/
theorem C4_amended_witness :
    (replace_placeholders_in_paragraph ⟨[⟨ph ['x'], none⟩]⟩ []).runs =
      ((Paragraph.mk [⟨ph ['x'], none⟩]).runs.map fun r => { r with text := [] }) ++
        emitRuns (segmentsOf (concatText ⟨[⟨ph ['x'], none⟩]⟩) []
          (pboldOf (concatText ⟨[⟨ph ['x'], none⟩]⟩))) :=
  (C4_amended ⟨[⟨ph ['x'], none⟩]⟩ [] (by decide)).1

/-- Witness for C5 at concrete inputs: a braceless paragraph and a
paragraph with `{{` but no complete match are both returned unchanged. -/
theorem C5_no_mutation_witness :
    replace_placeholders_in_paragraph ⟨[⟨['a', 'b'], some true⟩]⟩ [] =
        ⟨[⟨['a', 'b'], some true⟩]⟩
    ∧ replace_placeholders_in_paragraph ⟨[⟨['{', '{', 'x'], none⟩]⟩ [] =
        ⟨[⟨['{', '{', 'x'], none⟩]⟩ :=
  ⟨(C5_no_mutation ⟨[⟨['a', 'b'], some true⟩]⟩ []).1 (by decide),
    (C5_no_mutation ⟨[⟨['{', '{', 'x'], none⟩]⟩ []).2 (by decide) (by decide)⟩

/-- Witness for C10 at a concrete input: two runs splitting the text
`a{{e}}b` across the token boundary, with `{{e}}` mapped to the empty
string — the original runs survive with empty text and the token leaves no
run behind. -/
theorem C10_run_structure_witness :
    (replace_placeholders_in_paragraph
        ⟨[⟨['a', '{', '{', 'e'], none⟩, ⟨['}', '}', 'b'], some false⟩]⟩
        [(ph ['e'], [])]).runs.take 2 =
      [⟨[], none⟩, ⟨[], some false⟩] :=
  ((C10_run_structure ⟨[⟨['a', '{', '{', 'e'], none⟩, ⟨['}', '}', 'b'], some false⟩]⟩
    [(ph ['e'], [])] (by decide)).1).trans (by decide)

end Invoice
